import Mathlib

/-!
Verification of the email-network graph analytics engine (`src/main.rs`).

The Rust core holds an undirected graph as a `HashSet<String>` of vertices
together with a `HashMap<String, HashSet<String>>` adjacency map.  We embed
the hash containers as lists kept in insertion order: a `HashSet` becomes a
duplicate-free list (`insertName` mirrors `HashSet::insert`), a `HashMap`
becomes an association list with distinct keys (`insertNbr` mirrors
`entry(..).or_insert(..)` followed by `insert`, `findEntry` mirrors `get`).
All definitions are executable, and membership facts are decidable, so the
analytics can be evaluated on concrete graphs inside proofs.
-/

abbrev Vertex := String

/-- Embedding of `struct Graph { vertices: HashSet<String>, edges: HashMap<String, HashSet<String>> }`. -/
structure Graph where
  vertices : List Vertex
  edges : List (Vertex × List Vertex)
deriving Repr, DecidableEq

/-- Embedding of `Graph::new()`. -/
def Graph.new : Graph := ⟨[], []⟩

/-- Embedding of `HashSet::insert`: add an element unless it is already present. -/
def insertName (x : Vertex) (xs : List Vertex) : List Vertex :=
  if x ∈ xs then xs else xs ++ [x]

/-- Embedding of `self.edges.entry(k).or_insert(HashSet::new()); entry.insert(t)`:
update the neighbour set stored under key `k`, creating the entry if absent. -/
def insertNbr (k t : Vertex) : List (Vertex × List Vertex) → List (Vertex × List Vertex)
  | [] => [(k, [t])]
  | (k', ns) :: rest =>
    if k = k' then (k', insertName t ns) :: rest else (k', ns) :: insertNbr k t rest

/-- Embedding of `HashMap::get` on the adjacency map. -/
def findEntry (k : Vertex) : List (Vertex × List Vertex) → Option (List Vertex)
  | [] => none
  | (k', ns) :: rest => if k = k' then some ns else findEntry k rest

/-- Embedding of `Graph::add_edge` (src/main.rs lines 29-38): insert both vertices,
then the directed link source→target, then the directed link target→source.
The Rust code performs no self-loop check. -/
def Graph.add_edge (g : Graph) (source target : Vertex) : Graph :=
  { vertices := insertName target (insertName source g.vertices),
    edges := insertNbr target source (insertNbr source target g.edges) }

/-- Embedding of `Graph::get_neighbors` (src/main.rs lines 40-42): the stored
neighbour set, or the empty set for an unknown vertex. -/
def Graph.get_neighbors (g : Graph) (v : Vertex) : List Vertex :=
  match findEntry v g.edges with
  | some ns => ns
  | none => []

/-- A graph built by a sequence of `add_edge` calls starting from `Graph::new()`,
mirroring the ingestion loop that feeds (sender, recipient) pairs to the store. -/
def buildGraph (es : List (Vertex × Vertex)) : Graph :=
  es.foldl (fun g p => g.add_edge p.1 p.2) Graph.new

/-- Iterated insertion of one and the same edge, n times. -/
def add_edge_iter (g : Graph) (a b : Vertex) : Nat → Graph
  | 0 => g
  | n + 1 => (add_edge_iter g a b n).add_edge a b

/-! ### Breadth-first search (src/main.rs lines 128-149)

The Rust loop pops `(current_vertex, current_distance)` from a FIFO
`VecDeque`, and for each not-yet-visited neighbour records distance
`current_distance + 1`, marks it visited and pushes it.  We embed the loop
with an explicit fuel parameter (the Rust loop runs until the queue drains;
`bfsLoop_fuel_eq` below shows the chosen fuel is always enough, so the
embedding computes the same table as the unbounded loop). -/

/-- Embedding of `HashMap::insert` on the distance table. -/
def insertEntry (k : Vertex) (d : Nat) : List (Vertex × Nat) → List (Vertex × Nat)
  | [] => [(k, d)]
  | (k', d') :: rest => if k = k' then (k, d) :: rest else (k', d') :: insertEntry k d rest

/-- State of the BFS loop: the distance table, the visited set and the FIFO queue. -/
structure BfsState where
  distances : List (Vertex × Nat)
  visited : List Vertex
  queue : List (Vertex × Nat)
deriving Repr, DecidableEq

/-- Embedding of the inner `for neighbor in graph.get_neighbors(..)` loop of `bfs`:
each unvisited neighbour gets distance `d + 1`, is marked visited, and is enqueued. -/
def visitNbrs (d : Nat) (st : BfsState) : List Vertex → BfsState
  | [] => st
  | n :: rest =>
    if n ∈ st.visited then visitNbrs d st rest
    else visitNbrs d ⟨insertEntry n (d + 1) st.distances, st.visited ++ [n],
      st.queue ++ [(n, d + 1)]⟩ rest

/-- Embedding of the `while let Some((current_vertex, current_distance)) = queue.pop_front()`
loop of `bfs`, with explicit fuel. -/
def bfsLoop (g : Graph) :
    Nat → List (Vertex × Nat) → List Vertex → List (Vertex × Nat) → List (Vertex × Nat)
  | 0, distances, _, _ => distances
  | _ + 1, distances, _, [] => distances
  | fuel + 1, distances, visited, (cur, d) :: rest =>
    let st := visitNbrs d ⟨distances, visited, rest⟩ (g.get_neighbors cur)
    bfsLoop g fuel st.distances st.visited st.queue

/-- All vertex names occurring in some neighbour set of the adjacency map; every
vertex the BFS loop can ever enqueue (except the start) lies in this list. -/
def nbAll (g : Graph) : List Vertex := (g.edges.map Prod.snd).flatten

/-- Fuel that provably suffices for the BFS loop to drain its queue. -/
def bfsBound (g : Graph) : Nat := 2 * (nbAll g).toFinset.card + 1

/-- BFS from `s` run with a given amount of fuel, starting from the state the Rust
code sets up: `distances = {s: 0}`, `visited = {s}`, `queue = [(s, 0)]`. -/
def bfsFrom (g : Graph) (s : Vertex) (fuel : Nat) : List (Vertex × Nat) :=
  bfsLoop g fuel [(s, 0)] [s] [(s, 0)]

/-- Embedding of `bfs` (src/main.rs lines 128-149): the distance table from source `s`. -/
def bfs (g : Graph) (s : Vertex) : List (Vertex × Nat) := bfsFrom g s (bfsBound g)

/-! ### Distance analyzer (src/main.rs lines 112-126) -/

/-- Embedding of the accumulation loop of `calculate_average_distance`: for every
vertex, run `bfs` and add every entry of the distance table (the source's own
0 entry included) to `total_distance`, counting each entry in `total_pairs`.
Result: `(total_distance, total_pairs)`. -/
def calcTotals (g : Graph) : Nat × Nat :=
  g.vertices.foldl
    (fun acc v =>
      ((bfs g v).foldl (fun t e => t + e.2) acc.1, (bfs g v).foldl (fun t _ => t + 1) acc.2))
    (0, 0)

/-- Embedding of `calculate_average_distance` (src/main.rs lines 112-126).  The Rust
function returns `total_distance as f64 / total_pairs as f64`; we model the division
exactly in ℚ.  Note that when `total_pairs = 0` (empty graph) the Rust division
`0.0 / 0.0` yields the IEEE NaN artifact, while ℚ division by zero yields 0; the
claims about this case are therefore stated on `calcTotals` directly. -/
def calculate_average_distance (g : Graph) : ℚ :=
  ((calcTotals g).1 : ℚ) / ((calcTotals g).2 : ℚ)

/-- Numerator prescribed by the spec sentence for the Distance Analyzer: the sum of
BFS hop-distances over all ordered reachable pairs (u, v) with u ≠ v (the source's
distance-0 entry to itself excluded). -/
def specPairSum (g : Graph) : Nat :=
  (g.vertices.map (fun u => (((bfs g u).filter (fun e => e.1 != u)).map Prod.snd).sum)).sum

/-- Denominator prescribed by the spec sentence for the Distance Analyzer: the number
of ordered reachable pairs (u, v) with u ≠ v (self pairs excluded, unreachable pairs
absent from the BFS table and hence not counted). -/
def specPairCount (g : Graph) : Nat :=
  (g.vertices.map (fun u => ((bfs g u).filter (fun e => e.1 != u)).length)).sum

/-- Average distance as the spec sentence prescribes it (ℚ, exact). -/
def specAverage (g : Graph) : ℚ := (specPairSum g : ℚ) / (specPairCount g : ℚ)

/-! ### Degree distribution analyzer (src/main.rs lines 152-168) -/

/-- Embedding of `degrees.entry(degree).or_insert(0); *count += 1`. -/
def bumpDegree (d : Nat) : List (Nat × Nat) → List (Nat × Nat)
  | [] => [(d, 1)]
  | (d', c) :: rest => if d = d' then (d', c + 1) :: rest else (d', c) :: bumpDegree d rest

/-- Insertion step of sorting the histogram by ascending degree. -/
def insertSortedByDegree (p : Nat × Nat) : List (Nat × Nat) → List (Nat × Nat)
  | [] => [p]
  | q :: rest => if p.1 ≤ q.1 then p :: q :: rest else q :: insertSortedByDegree p rest

/-- Embedding of `degree_counts.sort_by_key(|&(degree, _)| degree)`; the histogram
keys are distinct, so any sort by the degree key yields the reported order. -/
def sortByDegree (l : List (Nat × Nat)) : List (Nat × Nat) := l.foldr insertSortedByDegree []

/-- Embedding of `degree_distribution_analysis` (src/main.rs lines 152-168),
returning the degree-sorted (degree, count) list the Rust code prints. -/
def degree_distribution_analysis (g : Graph) : List (Nat × Nat) :=
  sortByDegree (g.vertices.foldl (fun degs v => bumpDegree (g.get_neighbors v).length degs) [])

/-! ### Community detection and centrality (src/main.rs lines 190-201) -/

/-- Embedding of `louvain` (src/main.rs lines 190-194): the body ignores the graph
and returns `HashMap::new()`, i.e. the empty community assignment. -/
def louvain (_g : Graph) : List (Nat × List Vertex) := []

/-- Embedding of `calculate_centrality` (src/main.rs lines 197-201): the body ignores
the graph and returns `HashMap::new()`, i.e. the empty centrality mapping
(f64 scores modelled as ℚ). -/
def calculate_centrality (_g : Graph) : List (Vertex × ℚ) := []

/-! ### Edge count (spec §4.1) -/

/-- Modelled from the spec: the Graph Store operation `edge_count()` is declared in
spec §4.1 ("edge_count reports undirected edges once (not twice, despite symmetric
storage)") but no such function exists in src/main.rs.  Following the spec's words,
it counts the distinct undirected edges present in the adjacency store: each stored
directed link (k, n) is normalised to the unordered pair `s(k, n)` and the distinct
pairs are counted. -/
def Graph.edge_count (g : Graph) : Nat :=
  (g.edges.flatMap (fun p => p.2.map (fun n => s(p.1, n)))).toFinset.card

/-- Number of names of `nbAll g` not yet visited; together with the queue length it
bounds the remaining work of the BFS loop. -/
def unvisitedCard (g : Graph) (visited : List Vertex) : Nat :=
  ((nbAll g).toFinset \ visited.toFinset).card

/-! ### Lemmas about the container embeddings -/

theorem mem_insertName {x y : Vertex} {xs : List Vertex} :
    x ∈ insertName y xs ↔ x ∈ xs ∨ x = y := by
  unfold insertName
  split
  · constructor
    · exact fun h => Or.inl h
    · rintro (h | rfl)
      · exact h
      · assumption
  · simp [or_comm]

theorem self_mem_insertName (x : Vertex) (xs : List Vertex) : x ∈ insertName x xs := by
  simp [mem_insertName]

theorem insertName_eq_of_mem {x : Vertex} {xs : List Vertex} (h : x ∈ xs) :
    insertName x xs = xs := by
  simp [insertName, h]

theorem findEntry_insertNbr_same (k t : Vertex) (l : List (Vertex × List Vertex)) :
    findEntry k (insertNbr k t l) = some (insertName t ((findEntry k l).getD [])) := by
  induction l with
  | nil => simp [insertNbr, findEntry, insertName]
  | cons p rest ih =>
    obtain ⟨k', ns⟩ := p
    by_cases hk : k = k'
    · subst hk
      simp [insertNbr, findEntry]
    · simp [insertNbr, findEntry, hk, ih]

theorem findEntry_insertNbr_other {k k' : Vertex} (hk : k ≠ k') (t : Vertex)
    (l : List (Vertex × List Vertex)) :
    findEntry k (insertNbr k' t l) = findEntry k l := by
  induction l with
  | nil => simp [insertNbr, findEntry, hk]
  | cons p rest ih =>
    obtain ⟨k'', ns⟩ := p
    by_cases hk2 : k' = k''
    · subst hk2
      simp [insertNbr, findEntry, hk]
    · by_cases hk3 : k = k''
      · subst hk3
        simp [insertNbr, findEntry, hk2]
      · simp [insertNbr, findEntry, hk2, hk3, ih]

theorem get_neighbors_eq_getD (g : Graph) (v : Vertex) :
    g.get_neighbors v = (findEntry v g.edges).getD [] := by
  unfold Graph.get_neighbors
  cases h : findEntry v g.edges <;> simp

theorem mem_getD_insertNbr {k t v c : Vertex} {l : List (Vertex × List Vertex)} :
    c ∈ (findEntry v (insertNbr k t l)).getD [] ↔
      c ∈ (findEntry v l).getD [] ∨ (v = k ∧ c = t) := by
  by_cases hv : v = k
  · subst hv
    rw [findEntry_insertNbr_same]
    simp [mem_insertName]
  · rw [findEntry_insertNbr_other hv]
    simp [hv]

theorem mem_get_neighbors_add_edge {g : Graph} {a b v c : Vertex} :
    c ∈ (g.add_edge a b).get_neighbors v ↔
      c ∈ g.get_neighbors v ∨ (v = a ∧ c = b) ∨ (v = b ∧ c = a) := by
  rw [get_neighbors_eq_getD, get_neighbors_eq_getD]
  show c ∈ (findEntry v (insertNbr b a (insertNbr a b g.edges))).getD [] ↔ _
  rw [mem_getD_insertNbr, mem_getD_insertNbr]
  tauto

theorem mem_get_neighbors_buildGraph_aux (es : List (Vertex × Vertex)) (g : Graph)
    (v c : Vertex) :
    c ∈ (es.foldl (fun g p => g.add_edge p.1 p.2) g).get_neighbors v ↔
      c ∈ g.get_neighbors v ∨ (v, c) ∈ es ∨ (c, v) ∈ es := by
  induction es generalizing g with
  | nil => simp
  | cons p rest ih =>
    obtain ⟨a, b⟩ := p
    simp only [List.foldl_cons, ih, mem_get_neighbors_add_edge, List.mem_cons,
      Prod.mk.injEq]
    tauto

theorem mem_get_neighbors_buildGraph {es : List (Vertex × Vertex)} {v c : Vertex} :
    c ∈ (buildGraph es).get_neighbors v ↔ (v, c) ∈ es ∨ (c, v) ∈ es := by
  unfold buildGraph
  rw [mem_get_neighbors_buildGraph_aux]
  simp [Graph.new, Graph.get_neighbors, findEntry]

theorem insertNbr_eq_of_mem {k t : Vertex} {l : List (Vertex × List Vertex)}
    (h : t ∈ (findEntry k l).getD []) : insertNbr k t l = l := by
  induction l with
  | nil => simp [findEntry] at h
  | cons p rest ih =>
    obtain ⟨k', ns⟩ := p
    by_cases hk : k = k'
    · subst hk
      simp [findEntry] at h
      simp [insertNbr, insertName_eq_of_mem h]
    · simp only [findEntry, if_neg hk] at h
      simp [insertNbr, hk, ih h]

theorem add_edge_idem (g : Graph) (a b : Vertex) :
    (g.add_edge a b).add_edge a b = g.add_edge a b := by
  have hva : a ∈ insertName b (insertName a g.vertices) :=
    mem_insertName.mpr (Or.inl (self_mem_insertName a g.vertices))
  have hvb : b ∈ insertName b (insertName a g.vertices) := self_mem_insertName _ _
  have he1 : b ∈ (findEntry a (insertNbr b a (insertNbr a b g.edges))).getD [] := by
    rw [mem_getD_insertNbr, mem_getD_insertNbr]
    tauto
  have he2 : a ∈ (findEntry b (insertNbr b a (insertNbr a b g.edges))).getD [] := by
    rw [mem_getD_insertNbr]
    tauto
  simp only [Graph.add_edge, Graph.mk.injEq]
  constructor
  · rw [insertName_eq_of_mem hva, insertName_eq_of_mem hvb]
  · rw [insertNbr_eq_of_mem he1, insertNbr_eq_of_mem he2]

theorem add_edge_iter_succ (g : Graph) (a b : Vertex) (n : Nat) :
    add_edge_iter g a b (n + 1) = g.add_edge a b := by
  induction n with
  | zero => rfl
  | succ m ih =>
    show (add_edge_iter g a b (m + 1)).add_edge a b = g.add_edge a b
    rw [ih, add_edge_idem]

/-! ### Claim theorems: graph store -/

/-- Claim C3, counterexample: the claim asserts that `add_edge(a, a)` is a no-op
and that afterwards `a` does not appear in `neighbors(a)`.  On the concrete input
`add_edge("a", "a")` applied to the empty graph, `"a"` does appear in
`neighbors("a")` — the Rust code performs no self-loop check. -/
theorem c3_counterexample :
    "a" ∈ (Graph.new.add_edge "a" "a").get_neighbors "a" := by decide

/-- Claim C3, amended: for every graph and every vertex identifier `a`,
`add_edge(a, a)` is not a no-op: it inserts `a` into the vertex set and records
a self-loop, so afterwards `a` appears in `neighbors(a)`. -/
theorem c3_self_loop_inserted (g : Graph) (a : Vertex) :
    a ∈ (g.add_edge a a).vertices ∧ a ∈ (g.add_edge a a).get_neighbors a := by
  constructor
  · show a ∈ insertName a (insertName a g.vertices)
    exact self_mem_insertName _ _
  · rw [mem_get_neighbors_add_edge]
    tauto

/-- Claim C7: after every sequence of `add_edge` calls starting from `Graph::new()`,
the adjacency relation is symmetric: `v ∈ neighbors(u)` iff `u ∈ neighbors(v)`. -/
theorem c7_symmetry (es : List (Vertex × Vertex)) (u v : Vertex) :
    v ∈ (buildGraph es).get_neighbors u ↔ u ∈ (buildGraph es).get_neighbors v := by
  rw [mem_get_neighbors_buildGraph, mem_get_neighbors_buildGraph]
  tauto

/-- Claim C8: `add_edge` is idempotent — for every graph state and pair `(a, b)`,
inserting the same edge `n + 1` times (any count ≥ 1) yields a graph whose
`neighbors()` results all agree with those after inserting it once. -/
theorem c8_idempotent (g : Graph) (a b x : Vertex) (n : Nat) :
    (add_edge_iter g a b (n + 1)).get_neighbors x = (g.add_edge a b).get_neighbors x := by
  rw [add_edge_iter_succ]

/-! ### Claim theorems: stubs and edge cases -/

/-- Claim C2: the claim asserts that for a graph with zero vertices or one vertex the
average-distance query yields an explicit "not applicable" result.  In the code,
`calculate_average_distance` unconditionally computes
`total_distance as f64 / total_pairs as f64`: on the empty graph (`Graph::new()`,
exactly what `main` passes) the totals are (0, 0), so the division is the IEEE
artifact 0.0/0.0 = NaN, and on the one-vertex graph built by `add_edge("a","a")`
the totals are (0, 1), so the query answers 0.0 — in neither case an explicit
"not applicable" result. -/
theorem c2_small_graph_totals :
    calcTotals Graph.new = (0, 0) ∧ calcTotals (buildGraph [("a", "a")]) = (0, 1) := by
  decide

/-- Claim C5: the claim asserts that in a barbell graph the betweenness centrality of
the bridge vertex exceeds that of every clique-interior vertex.  The code's
`calculate_centrality` is a stub returning `HashMap::new()`: on the concrete barbell
(triangles a,b,c and e,f,g joined through bridge d) the returned mapping is empty,
so no vertex is assigned any score at all. -/
theorem c5_centrality_stub :
    calculate_centrality (buildGraph
      [("a", "b"), ("a", "c"), ("b", "c"), ("c", "d"), ("d", "e"),
        ("e", "f"), ("e", "g"), ("f", "g")]) = [] := rfl

/-- Claim C6: on the empty graph the degree histogram is empty, the community
assignment of `louvain` is empty and the centrality mapping is empty; all three
queries are total functions of the graph, so none raises an error. -/
theorem c6_empty_graph_reports :
    degree_distribution_analysis Graph.new = [] ∧ louvain Graph.new = [] ∧
      calculate_centrality Graph.new = [] :=
  ⟨rfl, rfl, rfl⟩

/-- Claim C9: on the path graph A–B–C–D the distance table produced by `bfs` from
source A is exactly {A ↦ 0, B ↦ 1, C ↦ 2, D ↦ 3}, each vertex appearing exactly
once (the embedding drives the same FIFO frontier as the Rust `VecDeque`). -/
theorem c9_bfs_path_distances :
    bfs (buildGraph [("A", "B"), ("B", "C"), ("C", "D")]) "A" =
      [("A", 0), ("B", 1), ("C", 2), ("D", 3)] := by decide

/-! ### Termination of the BFS loop -/

theorem findEntry_some_mem {k : Vertex} {ns : List Vertex} :
    ∀ {l : List (Vertex × List Vertex)}, findEntry k l = some ns → ns ∈ l.map Prod.snd := by
  intro l
  induction l with
  | nil => intro h; simp [findEntry] at h
  | cons p rest ih =>
    obtain ⟨k', ns'⟩ := p
    intro h
    by_cases hk : k = k'
    · subst hk
      simp [findEntry] at h
      simp [h]
    · simp only [findEntry, if_neg hk] at h
      simp [ih h]

theorem get_neighbors_subset_nbAll (g : Graph) (v : Vertex) :
    ∀ x ∈ g.get_neighbors v, x ∈ nbAll g := by
  intro x hx
  rw [get_neighbors_eq_getD] at hx
  cases h : findEntry v g.edges with
  | none => rw [h] at hx; simp at hx
  | some ns =>
    rw [h] at hx
    simp only [Option.getD_some] at hx
    have hns := findEntry_some_mem h
    unfold nbAll
    rw [List.mem_flatten]
    exact ⟨ns, hns, hx⟩

theorem unvisitedCard_append (g : Graph) {n : Vertex} {visited : List Vertex}
    (hn : n ∈ nbAll g) (hv : n ∉ visited) :
    unvisitedCard g (visited ++ [n]) + 1 = unvisitedCard g visited := by
  unfold unvisitedCard
  have htF : (visited ++ [n]).toFinset = insert n visited.toFinset := by
    simp [List.toFinset_append, Finset.union_comm, Finset.insert_eq]
  rw [htF, Finset.sdiff_insert]
  have hmem : n ∈ (nbAll g).toFinset \ visited.toFinset := by
    rw [Finset.mem_sdiff, List.mem_toFinset, List.mem_toFinset]
    exact ⟨hn, hv⟩
  rw [Finset.card_erase_of_mem hmem]
  have hpos : 0 < ((nbAll g).toFinset \ visited.toFinset).card :=
    Finset.card_pos.mpr ⟨n, hmem⟩
  omega

theorem visitNbrs_measure (g : Graph) (d : Nat) :
    ∀ (nbrs : List Vertex) (st : BfsState), (∀ x ∈ nbrs, x ∈ nbAll g) →
      (visitNbrs d st nbrs).queue.length + 2 * unvisitedCard g (visitNbrs d st nbrs).visited ≤
        st.queue.length + 2 * unvisitedCard g st.visited := by
  intro nbrs
  induction nbrs with
  | nil => intro st _; simp [visitNbrs]
  | cons n rest ih =>
    intro st hsub
    by_cases hn : n ∈ st.visited
    · rw [visitNbrs, if_pos hn]
      exact ih st (fun x hx => hsub x (List.mem_cons_of_mem n hx))
    · rw [visitNbrs, if_neg hn]
      have hstep := ih ⟨insertEntry n (d + 1) st.distances, st.visited ++ [n],
        st.queue ++ [(n, d + 1)]⟩ (fun x hx => hsub x (List.mem_cons_of_mem n hx))
      have hcard := unvisitedCard_append g (hsub n (List.mem_cons_self n rest)) hn
      simp only [List.length_append, List.length_cons, List.length_nil] at hstep
      omega

theorem bfsLoop_fuel_eq (g : Graph) :
    ∀ (n fuel : Nat) (distances : List (Vertex × Nat)) (visited : List Vertex)
      (queue : List (Vertex × Nat)),
      queue.length + 2 * unvisitedCard g visited ≤ n → n ≤ fuel →
      bfsLoop g fuel distances visited queue = bfsLoop g n distances visited queue := by
  intro n
  induction n with
  | zero =>
    intro fuel distances visited queue hm _
    have hq : queue = [] := by
      cases queue with
      | nil => rfl
      | cons p rest => simp at hm
    subst hq
    cases fuel with
    | zero => rfl
    | succ f => rfl
  | succ m ih =>
    intro fuel distances visited queue hm hf
    cases fuel with
    | zero => omega
    | succ f =>
      cases queue with
      | nil => rfl
      | cons p rest =>
        obtain ⟨cur, dc⟩ := p
        show bfsLoop g f _ _ _ = bfsLoop g m _ _ _
        have hnb : (visitNbrs dc ⟨distances, visited, rest⟩ (g.get_neighbors cur)).queue.length +
            2 * unvisitedCard g
              (visitNbrs dc ⟨distances, visited, rest⟩ (g.get_neighbors cur)).visited ≤
            rest.length + 2 * unvisitedCard g visited :=
          visitNbrs_measure g dc (g.get_neighbors cur) ⟨distances, visited, rest⟩
            (get_neighbors_subset_nbAll g cur)
        refine ih f _ _ _ ?_ (by omega)
        have hm' : rest.length + 1 + 2 * unvisitedCard g visited ≤ m + 1 := by
          simpa using hm
        omega

/-- Claim C10: the `bfs` loop terminates on every finite graph and start vertex —
each vertex is enqueued at most once (guarded by the visited set), so the frontier
drains within the provable fuel bound `bfsBound g`, and giving the loop any larger
amount of fuel returns the same finite distance table. -/
theorem c10_bfs_terminates (g : Graph) (s : Vertex) (fuel : Nat)
    (h : bfsBound g ≤ fuel) : bfsFrom g s fuel = bfs g s := by
  unfold bfs bfsFrom
  apply bfsLoop_fuel_eq g (bfsBound g) fuel
  · have hsub : unvisitedCard g [s] ≤ (nbAll g).toFinset.card :=
      Finset.card_le_card Finset.sdiff_subset
    unfold bfsBound
    simp only [List.length_cons, List.length_nil]
    omega
  · exact h

/-- Claim C10 witness: on the concrete one-edge graph A–B, fuel 20 exceeds the bound
and the loop result coincides with `bfs`. -/
theorem c10_witness :
    bfsBound (buildGraph [("A", "B")]) ≤ 20 ∧
      bfsFrom (buildGraph [("A", "B")]) "A" 20 = bfs (buildGraph [("A", "B")]) "A" :=
  ⟨by decide, c10_bfs_terminates (buildGraph [("A", "B")]) "A" 20 (by decide)⟩

/-! ### Shape of the BFS distance table -/

theorem insertEntry_of_not_mem {k : Vertex} (d : Nat) :
    ∀ {l : List (Vertex × Nat)}, k ∉ l.map Prod.fst → insertEntry k d l = l ++ [(k, d)] := by
  intro l
  induction l with
  | nil => intro _; rfl
  | cons p rest ih =>
    obtain ⟨k', d'⟩ := p
    intro hk
    simp only [List.map_cons, List.mem_cons] at hk
    push_neg at hk
    obtain ⟨hk1, hk2⟩ := hk
    rw [insertEntry, if_neg hk1, ih hk2]
    rfl

theorem visitNbrs_shape (d : Nat) :
    ∀ (nbrs : List Vertex) (st : BfsState),
      st.distances.map Prod.fst = st.visited → st.visited.Nodup →
      (visitNbrs d st nbrs).distances.map Prod.fst = (visitNbrs d st nbrs).visited ∧
        (visitNbrs d st nbrs).visited.Nodup ∧
        ∃ ext, (visitNbrs d st nbrs).distances = st.distances ++ ext := by
  intro nbrs
  induction nbrs with
  | nil =>
    intro st h1 h2
    exact ⟨h1, h2, [], by simp [visitNbrs]⟩
  | cons n rest ih =>
    intro st h1 h2
    by_cases hn : n ∈ st.visited
    · rw [visitNbrs, if_pos hn]
      exact ih st h1 h2
    · rw [visitNbrs, if_neg hn]
      have hkeys : n ∉ st.distances.map Prod.fst := by rw [h1]; exact hn
      have hins : insertEntry n (d + 1) st.distances = st.distances ++ [(n, d + 1)] :=
        insertEntry_of_not_mem (d + 1) hkeys
      have h1' : (insertEntry n (d + 1) st.distances).map Prod.fst = st.visited ++ [n] := by
        rw [hins, List.map_append, h1]
        rfl
      have h2' : (st.visited ++ [n]).Nodup := by
        simp [List.nodup_append, h2, hn]
      obtain ⟨ha, hb, ext, hc⟩ := ih ⟨insertEntry n (d + 1) st.distances, st.visited ++ [n],
        st.queue ++ [(n, d + 1)]⟩ h1' h2'
      refine ⟨ha, hb, [(n, d + 1)] ++ ext, ?_⟩
      rw [hc]
      simp [hins]

theorem bfsLoop_shape (g : Graph) :
    ∀ (fuel : Nat) (distances : List (Vertex × Nat)) (visited : List Vertex)
      (queue : List (Vertex × Nat)),
      distances.map Prod.fst = visited → visited.Nodup →
      ∃ ext, bfsLoop g fuel distances visited queue = distances ++ ext ∧
        ((distances ++ ext).map Prod.fst).Nodup := by
  intro fuel
  induction fuel with
  | zero =>
    intro distances visited queue h1 h2
    refine ⟨[], by simp [bfsLoop], ?_⟩
    simpa [h1] using h2
  | succ f ih =>
    intro distances visited queue h1 h2
    cases queue with
    | nil =>
      refine ⟨[], by simp [bfsLoop], ?_⟩
      simpa [h1] using h2
    | cons p rest =>
      obtain ⟨cur, dc⟩ := p
      obtain ⟨ha, hb, ext1, hc⟩ := visitNbrs_shape dc (g.get_neighbors cur)
        ⟨distances, visited, rest⟩ h1 h2
      obtain ⟨ext2, hd, he⟩ := ih
        (visitNbrs dc ⟨distances, visited, rest⟩ (g.get_neighbors cur)).distances
        (visitNbrs dc ⟨distances, visited, rest⟩ (g.get_neighbors cur)).visited
        (visitNbrs dc ⟨distances, visited, rest⟩ (g.get_neighbors cur)).queue ha hb
      refine ⟨ext1 ++ ext2, ?_, ?_⟩
      · show bfsLoop g f _ _ _ = _
        rw [hd, hc, List.append_assoc]
      · rw [hc, List.append_assoc] at he
        exact he

theorem bfs_shape (g : Graph) (s : Vertex) :
    ∃ rest, bfs g s = (s, 0) :: rest ∧ s ∉ rest.map Prod.fst := by
  obtain ⟨ext, h1, h2⟩ := bfsLoop_shape g (bfsBound g) [(s, 0)] [s] [(s, 0)] rfl
    (List.nodup_singleton s)
  refine ⟨ext, h1, ?_⟩
  have : (((s, 0) :: ext).map Prod.fst).Nodup := by simpa using h2
  simp only [List.map_cons, List.nodup_cons] at this
  exact this.1

theorem bfs_filter_self (g : Graph) (s : Vertex) :
    ∃ rest, bfs g s = (s, 0) :: rest ∧ (bfs g s).filter (fun e => e.1 != s) = rest := by
  obtain ⟨rest, h1, h2⟩ := bfs_shape g s
  refine ⟨rest, h1, ?_⟩
  rw [h1, List.filter_cons]
  have hs : (((s, 0) : Vertex × Nat).1 != s) = false := by simp
  rw [hs]
  simp only [Bool.false_eq_true, if_false]
  apply List.filter_eq_self.mpr
  intro e he
  have : e.1 ∈ rest.map Prod.fst := List.mem_map_of_mem Prod.fst he
  have hne : e.1 ≠ s := fun h => h2 (h ▸ this)
  simpa using hne

theorem bfs_snd_sum_filter (g : Graph) (s : Vertex) :
    ((bfs g s).map Prod.snd).sum =
      (((bfs g s).filter (fun e => e.1 != s)).map Prod.snd).sum := by
  obtain ⟨rest, h1, h2⟩ := bfs_filter_self g s
  rw [h2, h1]
  simp

theorem bfs_length_filter (g : Graph) (s : Vertex) :
    (bfs g s).length = ((bfs g s).filter (fun e => e.1 != s)).length + 1 := by
  obtain ⟨rest, h1, h2⟩ := bfs_filter_self g s
  rw [h2, h1]
  simp

theorem foldl_add_snd (l : List (Vertex × Nat)) :
    ∀ a : Nat, l.foldl (fun t e => t + e.2) a = a + (l.map Prod.snd).sum := by
  induction l with
  | nil => intro a; simp
  | cons p rest ih =>
    intro a
    simp only [List.foldl_cons, ih, List.map_cons, List.sum_cons]
    omega

theorem foldl_count (l : List (Vertex × Nat)) :
    ∀ a : Nat, l.foldl (fun t _ => t + 1) a = a + l.length := by
  induction l with
  | nil => intro a; simp
  | cons p rest ih =>
    intro a
    simp only [List.foldl_cons, ih, List.length_cons]
    omega

theorem calcTotals_eq_sums (g : Graph) :
    calcTotals g = ((g.vertices.map (fun v => ((bfs g v).map Prod.snd).sum)).sum,
      (g.vertices.map (fun v => (bfs g v).length)).sum) := by
  unfold calcTotals
  suffices h : ∀ (l : List Vertex) (a b : Nat),
      l.foldl (fun acc v => ((bfs g v).foldl (fun t e => t + e.2) acc.1,
        (bfs g v).foldl (fun t _ => t + 1) acc.2)) (a, b) =
      (a + (l.map (fun v => ((bfs g v).map Prod.snd).sum)).sum,
        b + (l.map (fun v => (bfs g v).length)).sum) by
    rw [h]
    simp
  intro l
  induction l with
  | nil => intro a b; simp
  | cons v rest ih =>
    intro a b
    simp only [List.foldl_cons]
    rw [ih, foldl_add_snd, foldl_count]
    simp only [List.map_cons, List.sum_cons]
    rw [Prod.mk.injEq]
    constructor <;> omega

/-- Claim C1, counterexample: on the single-edge graph a–b the code's average is
(0+1+1+0)/4 = 1/2 because each source's distance-0 entry to itself is counted in
the denominator, while the claim's formula (self pairs excluded from numerator and
denominator) yields (1+1)/2 = 1. -/
theorem c1_counterexample :
    calculate_average_distance (buildGraph [("a", "b")]) ≠
        specAverage (buildGraph [("a", "b")]) ∧
      calculate_average_distance (buildGraph [("a", "b")]) = 1 / 2 ∧
      specAverage (buildGraph [("a", "b")]) = 1 := by
  have hc : calcTotals (buildGraph [("a", "b")]) = (2, 4) := by decide
  have h1 : specPairSum (buildGraph [("a", "b")]) = 2 := by decide
  have h2 : specPairCount (buildGraph [("a", "b")]) = 2 := by decide
  have hca : calculate_average_distance (buildGraph [("a", "b")]) = 1 / 2 := by
    rw [calculate_average_distance, hc]
    norm_num
  have hsa : specAverage (buildGraph [("a", "b")]) = 1 := by
    rw [specAverage, h1, h2]
    norm_num
  refine ⟨?_, hca, hsa⟩
  rw [hca, hsa]
  norm_num

/-- Claim C1, amended: the code's `total_distance` does equal the claim's numerator
(the sum of BFS hop-distances over all ordered reachable pairs (u, v) with u ≠ v;
the self entries contribute distance 0), but the code's `total_pairs` equals the
claim's denominator PLUS one self pair per vertex: the source's distance-0 entry to
itself is counted in the denominator, not excluded.  Unreachable pairs are absent
from the BFS table and contribute to neither total. -/
theorem c1_totals_amended (g : Graph) :
    calcTotals g = (specPairSum g, specPairCount g + g.vertices.length) := by
  rw [calcTotals_eq_sums]
  unfold specPairSum specPairCount
  rw [Prod.mk.injEq]
  constructor
  · congr 1
    apply List.map_congr_left
    intro v _
    exact bfs_snd_sum_filter g v
  · have h : ∀ (l : List Vertex),
        (l.map (fun v => (bfs g v).length)).sum =
          (l.map (fun u => ((bfs g u).filter (fun e => e.1 != u)).length)).sum + l.length := by
      intro l
      induction l with
      | nil => simp
      | cons v rest ih =>
        simp only [List.map_cons, List.sum_cons, List.length_cons, ih, bfs_length_filter g v]
        omega
    exact h g.vertices

/-! ### Edge counting -/

theorem mem_keys_insertNbr {x k t : Vertex} :
    ∀ {l : List (Vertex × List Vertex)},
      x ∈ (insertNbr k t l).map Prod.fst ↔ x ∈ l.map Prod.fst ∨ x = k := by
  intro l
  induction l with
  | nil => simp [insertNbr]
  | cons p rest ih =>
    obtain ⟨k', ns⟩ := p
    by_cases hk : k = k'
    · subst hk
      rw [insertNbr, if_pos rfl]
      simp only [List.map_cons, List.mem_cons]
      tauto
    · simp only [insertNbr, if_neg hk, List.map_cons, List.mem_cons, ih]
      tauto

theorem nodup_keys_insertNbr {k t : Vertex} :
    ∀ {l : List (Vertex × List Vertex)}, (l.map Prod.fst).Nodup →
      ((insertNbr k t l).map Prod.fst).Nodup := by
  intro l
  induction l with
  | nil => intro _; simp [insertNbr]
  | cons p rest ih =>
    obtain ⟨k', ns⟩ := p
    intro h
    simp only [List.map_cons, List.nodup_cons] at h
    obtain ⟨h1, h2⟩ := h
    by_cases hk : k = k'
    · subst hk
      rw [insertNbr, if_pos rfl]
      simp only [List.map_cons, List.nodup_cons]
      exact ⟨h1, h2⟩
    · simp only [insertNbr, if_neg hk, List.map_cons, List.nodup_cons]
      refine ⟨?_, ih h2⟩
      intro hmem
      rw [mem_keys_insertNbr] at hmem
      rcases hmem with h | h
      · exact h1 h
      · exact hk h.symm

theorem buildGraph_keys_nodup (es : List (Vertex × Vertex)) :
    (((buildGraph es).edges).map Prod.fst).Nodup := by
  unfold buildGraph
  suffices h : ∀ g : Graph, (g.edges.map Prod.fst).Nodup →
      (((es.foldl (fun g p => g.add_edge p.1 p.2) g).edges).map Prod.fst).Nodup by
    exact h Graph.new (by simp [Graph.new])
  induction es with
  | nil => intro g hg; exact hg
  | cons p rest ih =>
    intro g hg
    exact ih _ (nodup_keys_insertNbr (nodup_keys_insertNbr hg))

theorem findEntry_some_pair_mem {k : Vertex} {ns : List Vertex} :
    ∀ {l : List (Vertex × List Vertex)}, findEntry k l = some ns → (k, ns) ∈ l := by
  intro l
  induction l with
  | nil => intro h; simp [findEntry] at h
  | cons p rest ih =>
    obtain ⟨k', ns'⟩ := p
    intro h
    by_cases hk : k = k'
    · subst hk
      rw [findEntry, if_pos rfl] at h
      obtain rfl : ns' = ns := Option.some.inj h
      exact List.mem_cons_self _ _
    · simp only [findEntry, if_neg hk] at h
      exact List.mem_cons_of_mem _ (ih h)

theorem findEntry_of_mem_nodup {k : Vertex} {ns : List Vertex} :
    ∀ {l : List (Vertex × List Vertex)}, (l.map Prod.fst).Nodup → (k, ns) ∈ l →
      findEntry k l = some ns := by
  intro l
  induction l with
  | nil => intro _ h; simp at h
  | cons p rest ih =>
    obtain ⟨k', ns'⟩ := p
    intro hnd hmem
    simp only [List.map_cons, List.nodup_cons] at hnd
    obtain ⟨h1, h2⟩ := hnd
    rcases List.mem_cons.mp hmem with heq | hmem'
    · rw [Prod.mk.injEq] at heq
      obtain ⟨rfl, rfl⟩ := heq
      simp [findEntry]
    · have hkmem : k ∈ rest.map Prod.fst := by
        have := List.mem_map_of_mem Prod.fst hmem'
        simpa using this
      have hk : k ≠ k' := fun h => h1 (h ▸ hkmem)
      rw [findEntry, if_neg hk]
      exact ih h2 hmem'

theorem mem_sym2_flatMap {g : Graph} (hnd : (g.edges.map Prod.fst).Nodup) (z : Sym2 Vertex) :
    z ∈ g.edges.flatMap (fun p => p.2.map (fun n => s(p.1, n))) ↔
      ∃ k n, n ∈ g.get_neighbors k ∧ z = s(k, n) := by
  rw [List.mem_flatMap]
  constructor
  · rintro ⟨p, hp, hz⟩
    obtain ⟨k, ns⟩ := p
    rw [List.mem_map] at hz
    obtain ⟨n, hn, rfl⟩ := hz
    refine ⟨k, n, ?_, rfl⟩
    have hfind : findEntry k g.edges = some ns := findEntry_of_mem_nodup hnd hp
    rw [get_neighbors_eq_getD, hfind]
    simpa using hn
  · rintro ⟨k, n, hn, rfl⟩
    rw [get_neighbors_eq_getD] at hn
    cases h : findEntry k g.edges with
    | none => rw [h] at hn; simp at hn
    | some ns =>
      rw [h] at hn
      simp only [Option.getD_some] at hn
      refine ⟨(k, ns), findEntry_some_pair_mem h, ?_⟩
      rw [List.mem_map]
      exact ⟨n, hn, rfl⟩

/-- Claim C4 (spec-modelled `edge_count`): for every sequence of `add_edge`
insertions, the modelled `edge_count()` equals the number of DISTINCT unordered
pairs inserted — each undirected edge is reported exactly once (not twice, despite
the symmetric storage), and since insertion pairs are normalised to unordered
`Sym2` values, the count is the same regardless of whether a pair entered as
(a, b) or (b, a). -/
theorem c4_edge_count (es : List (Vertex × Vertex)) :
    (buildGraph es).edge_count = ((es.map (fun p => s(p.1, p.2))).toFinset).card := by
  unfold Graph.edge_count
  congr 1
  apply Finset.ext
  intro z
  rw [List.mem_toFinset, List.mem_toFinset, mem_sym2_flatMap (buildGraph_keys_nodup es)]
  constructor
  · rintro ⟨k, n, hn, rfl⟩
    rw [mem_get_neighbors_buildGraph] at hn
    rw [List.mem_map]
    rcases hn with h | h
    · exact ⟨(k, n), h, rfl⟩
    · exact ⟨(n, k), h, Sym2.eq_swap⟩
  · rw [List.mem_map]
    rintro ⟨p, hp, rfl⟩
    refine ⟨p.1, p.2, mem_get_neighbors_buildGraph.mpr (Or.inl ?_), rfl⟩
    rw [Prod.mk.eta]
    exact hp
